import Mathlib

/-!
Verification of the normalization core of `trybuild` (`src/normalize.rs`).

The source operates on Rust `String`/`&str` values (UTF-8 text).  We shallowly
embed text as `List Char`, the sequence of Unicode scalar values of a string.
All byte indices computed by the source (`find`, `rfind`, `replace_range`,
slicing) are only ever taken at positions delimited by single-byte ASCII
characters, so byte positions and `List Char` positions delimit the same
substrings; the embedding therefore slices by character index.

The two entry points consume raw bytes through `String::from_utf8_lossy`,
which is total and surjective onto strings and is the identity on the UTF-8
encoding of any string.  A claim quantified over raw byte inputs is embedded
as the same claim quantified over all `List Char` values (the possible results
of the lossy decode).
-/

namespace Trybuild

/-- Rust `char::is_whitespace`: the Unicode `White_Space` property, used by
`str::trim_start` and `str::trim_end` in the source. -/
def isRustWhitespace (c : Char) : Bool :=
  let n := c.toNat
  (0x09 ≤ n && n ≤ 0x0D) || n == 0x20 || n == 0x85 || n == 0xA0 || n == 0x1680 ||
  (0x2000 ≤ n && n ≤ 0x200A) || n == 0x2028 || n == 0x2029 || n == 0x202F ||
  n == 0x205F || n == 0x3000

/-- Rust `str::trim_start` (drop leading whitespace). -/
def trimStart (s : List Char) : List Char :=
  s.dropWhile isRustWhitespace

/-- Rust `str::trim_end` (drop trailing whitespace). -/
def trimEnd (s : List Char) : List Char :=
  (s.reverse.dropWhile isRustWhitespace).reverse

/-- `normalize.rs` `trim`: truncate the decoded text to the length of its
`trim_end`, then push a single `'\n'` if anything remains. -/
def trim (output : List Char) : List Char :=
  let normalized := trimEnd output
  if normalized.isEmpty then normalized else normalized ++ ['\n']

/-- Rust `char::to_ascii_lowercase` (only `A`..`Z` are folded). -/
def toAsciiLowercase (c : Char) : Char :=
  if 'A' ≤ c ∧ c ≤ 'Z' then Char.ofNat (c.toNat + 32) else c

/-- Rust `str::to_ascii_lowercase`, applied character by character. -/
def mapLower (s : List Char) : List Char :=
  s.map toAsciiLowercase

/-- Core loop of Rust `str::split` for a nonempty pattern: scan left to right,
cutting at each leftmost non-overlapping occurrence of `pat`.  `fuel` is a
structural-recursion bound; it is always called with `fuel ≥ length of the
list`, in which case the `fuel = 0` fallback arm is unreachable. -/
def splitGoF (pat : List Char) : Nat → List Char → List (List Char)
  | _, [] => [[]]
  | 0, l => [l]
  | fuel + 1, c :: rest =>
    if 0 < pat.length && pat.isPrefixOf (c :: rest) then
      [] :: splitGoF pat fuel ((c :: rest).drop pat.length)
    else
      match splitGoF pat fuel rest with
      | [] => [[c]]
      | seg :: segs => (c :: seg) :: segs

/-- Rust `str::split` with a string pattern, as used by `String::replace` and
by `replace_case_insensitive`.  An empty pattern matches at every character
boundary, including both ends. -/
def splitOnSeq (l pat : List Char) : List (List Char) :=
  if pat.isEmpty then [] :: (l.map fun c => [c]) ++ [[]]
  else splitGoF pat l.length l

/-- Join the fragments produced by `splitOnSeq`, inserting `sep` between
consecutive fragments. -/
def joinWith (sep : List Char) : List (List Char) → List Char
  | [] => []
  | [x] => x
  | x :: rest => x ++ sep ++ joinWith sep rest

/-- Rust `str::replace` with a string pattern: split on the pattern and join
with the replacement. -/
def replaceList (s pat tok : List Char) : List Char :=
  joinWith tok (splitOnSeq s pat)

/-- Rust `str::replace('\\', "/")` as used in the `"::: "` branch. -/
def replaceBackslash (s : List Char) : List Char :=
  s.map fun c => if c = '\\' then '/' else c

/-- Reassembly steps after the first fragment in `replace_case_insensitive`:
for each remaining fragment, emit the replacement, skip `patLen` characters of
the original string, then emit the original characters at the fragment's
position (preserving their case). -/
def rebuildRest (self : List Char) (patLen : Nat) (tok : List Char) :
    List (List Char) → List Char
  | [] => []
  | seg :: rest =>
    tok ++ (((self.drop patLen).take seg.length)
      ++ rebuildRest ((self.drop patLen).drop seg.length) patLen tok rest)

/-- Reassembly of the original-case output of `replace_case_insensitive` from
the fragments of the lowercased split. -/
def rebuild (self : List Char) (patLen : Nat) (tok : List Char) :
    List (List Char) → List Char
  | [] => []
  | first :: rest => self.take first.length
      ++ rebuildRest (self.drop first.length) patLen tok rest

/-- `normalize.rs` `replace_case_insensitive`: split an ASCII-lowercased copy
of `self` on the lowercased pattern and re-slice the original string at the
corresponding offsets, inserting the replacement at each match.  `to_ascii_lowercase`
maps each character to one character, so offsets in the lowered copy delimit
the same substrings of the original. -/
def replaceCaseInsensitive (self fromPat tok : List Char) : List Char :=
  let lower_self := mapLower self
  let lower_pat := mapLower fromPat
  rebuild self lower_pat.length tok (splitOnSeq lower_self lower_pat)

/-- Rust `str::find` with a string pattern: index of the leftmost occurrence
(`some 0` for an empty pattern). -/
def findSeqIdx : List Char → List Char → Option Nat
  | l, pat =>
    if pat.isPrefixOf l then some 0
    else
      match l with
      | [] => none
      | _ :: rest => (findSeqIdx rest pat).map (· + 1)

/-- Rust `str::contains` with a string pattern. -/
def containsSeq (l pat : List Char) : Bool :=
  (findSeqIdx l pat).isSome

/-- Rust `line.rfind(&['/', '\\'][..])`: index of the last path separator. -/
def rfindSep (line : List Char) : Option Nat :=
  match line.reverse.findIdx? (fun c => c == '/' || c == '\\') with
  | some i => some (line.length - 1 - i)
  | none => none

/-- The `Context` bundle: package identifier, source directory and workspace
root, each embedded as the character sequence of its `to_string_lossy` form. -/
structure Context where
  krate : List Char
  source_dir : List Char
  workspace : List Char

/-- The ordered `Normalization` enumeration, in source order. -/
inductive Normalization
  | Basic
  | StripCouldNotCompile
  | StripCouldNotCompile2
  | StripForMoreInformation
  | StripForMoreInformation2
  | DirBackslash
  | TrimEnd
  | RustLib
deriving DecidableEq

/-- Variant index, realizing the derived `PartialOrd` ordering of the Rust
enum (declaration order). -/
def Normalization.rank : Normalization → Nat
  | .Basic => 0
  | .StripCouldNotCompile => 1
  | .StripCouldNotCompile2 => 2
  | .StripForMoreInformation => 3
  | .StripForMoreInformation2 => 4
  | .DirBackslash => 5
  | .TrimEnd => 6
  | .RustLib => 7

/-- Rust `normalization >= m` on the derived enum ordering. -/
def Normalization.atLeast (n m : Normalization) : Bool :=
  Nat.ble m.rank n.rank

/-- The `"--> "` branch of `filter`: replace everything between the arrow and
the final path separator with `$DIR/`.  The source's `line.find('>').unwrap()`
cannot fail in this branch (the guard guarantees a `'>'`); the `getD 0`
default is dead code standing in for the impossible `unwrap` panic. -/
def arrowRewrite (line : List Char) : List Char :=
  let cut_end := (rfindSep line).getD 0
  let cut_start := (line.findIdx? (fun c => c == '>')).getD 0 + 2
  line.take cut_start ++ "$DIR/".data ++ line.drop (cut_end + 1)

/-- The `"::: "` branch of `filter`: redact the workspace root, normalize
backslashes, and at `RustLib` and above collapse a standard-library source
path into `$RUST`.  The source's `line.find("::: ").unwrap()` is modelled by
`getD 0`; it can only be `none` for adversarial workspace strings that
rewrite away the `"::: "` prefix, where the source would panic. -/
def colonRewrite (line : List Char) (normalization : Normalization)
    (context : Context) : List Char :=
  let line1 := replaceBackslash
    (replaceCaseInsensitive line context.workspace "$WORKSPACE".data)
  if normalization.atLeast .RustLib then
    match findSeqIdx line1 "/rustlib/src/rust/src/".data with
    | some pos =>
      let start := (findSeqIdx line1 "::: ".data).getD 0 + 4
      line1.take start ++ "$RUST".data ++ line1.drop (pos + 17)
    | none => line1
  else line1

/-- The drop rules of `filter`, in source order: a line is dropped when any
rule enabled at the current level matches. -/
def dropCond (line : List Char) (normalization : Normalization) : Bool :=
  "error: aborting due to ".data.isPrefixOf line ||
  line == "To learn more, run the command again with --verbose.".data ||
  (normalization.atLeast .StripCouldNotCompile &&
    "error: Could not compile `".data.isPrefixOf line) ||
  (normalization.atLeast .StripCouldNotCompile2 &&
    "error: could not compile `".data.isPrefixOf line) ||
  (normalization.atLeast .StripForMoreInformation &&
    "For more information about this error, try `rustc --explain".data.isPrefixOf line) ||
  (normalization.atLeast .StripForMoreInformation2 &&
    ("Some errors have detailed explanations:".data.isPrefixOf line ||
     "For more information about an error, try `rustc --explain".data.isPrefixOf line))

/-- The level-gated per-line transforms preceding the final replacements:
the `DirBackslash` rewrite and the `TrimEnd` trailing-whitespace strip. -/
def preReplace (line : List Char) (normalization : Normalization)
    (context : Context) : List Char :=
  let line1 :=
    if normalization.atLeast .DirBackslash then
      replaceList line (context.source_dir ++ ['\\']) "$DIR/".data
    else line
  if normalization.atLeast .TrimEnd then trimEnd line1 else line1

/-- The final unconditional replacements of `filter`: the package identifier
becomes `$CRATE` (literal match), the source directory `$DIR` and the
workspace root `$WORKSPACE` (case-insensitive matches). -/
def finalReplace (line : List Char) (context : Context) : List Char :=
  replaceCaseInsensitive
    (replaceCaseInsensitive (replaceList line context.krate "$CRATE".data)
      context.source_dir "$DIR".data)
    context.workspace "$WORKSPACE".data

/-- Combined fall-through tail of `filter` for lines that pass the drop
rules. -/
def tailTransform (line : List Char) (normalization : Normalization)
    (context : Context) : List Char :=
  finalReplace (preReplace line normalization context) context

/-- `normalize.rs` `filter`: the per-line transform.  `none` models the
source's `return None` (the line is dropped). -/
def filter (line : List Char) (normalization : Normalization)
    (context : Context) : Option (List Char) :=
  if "--> ".data.isPrefixOf (trimStart line) && (rfindSep line).isSome then
    some (arrowRewrite line)
  else if "::: ".data.isPrefixOf (trimStart line) then
    some (colonRewrite line normalization context)
  else if dropCond line normalization then
    none
  else
    some (tailTransform line normalization context)

/-- Rust `str::split_inclusive('\n')`: each fragment keeps its terminating
newline; an empty string yields no fragments. -/
def splitInclusiveNl : List Char → List (List Char)
  | [] => []
  | c :: t =>
    if c = '\n' then ['\n'] :: splitInclusiveNl t
    else
      match splitInclusiveNl t with
      | [] => [[c]]
      | s :: rest => (c :: s) :: rest

/-- The per-fragment map of Rust `str::lines`: strip one trailing `'\n'`,
and when one was stripped also one trailing `'\r'`. -/
def stripLine (l : List Char) : List Char :=
  if l.getLast? == some '\n' then
    let l1 := l.dropLast
    if l1.getLast? == some '\r' then l1.dropLast else l1
  else l

/-- Rust `str::lines`. -/
def rustLines (s : List Char) : List (List Char) :=
  (splitInclusiveNl s).map stripLine

/-- The accumulation loop of `apply`: append each surviving line, then push a
separating newline unless the accumulator already ends with a blank line. -/
def applyLoop (ls : List (List Char)) (normalization : Normalization)
    (context : Context) (normalized : List Char) : List Char :=
  match ls with
  | [] => normalized
  | line :: rest =>
    match filter line normalization context with
    | none => applyLoop rest normalization context normalized
    | some l =>
      let n1 := normalized ++ l
      let n2 := if ['\n', '\n'].isSuffixOf n1 then n1 else n1 ++ ['\n']
      applyLoop rest normalization context n2

/-- `normalize.rs` `apply`: run `filter` over the lines of the decoded text
and trim the reassembled result. -/
def apply (original : List Char) (normalization : Normalization)
    (context : Context) : List Char :=
  trim (applyLoop (rustLines original) normalization context [])

/-- The set of normalized outputs, one per level in ascending order. -/
structure Variations where
  variations : List (List Char)

/-- `Variations::preferred`: the last (most aggressive) variation.  The
source's `last().unwrap()` cannot fail on any value built by `diagnostics`;
`getD []` stands in for the impossible panic on an empty list. -/
def Variations.preferred (v : Variations) : List Char :=
  v.variations.getLast?.getD []

/-- `Variations::any`. -/
def Variations.any (v : Variations) (f : List Char → Bool) : Bool :=
  v.variations.any f

/-- `normalize.rs` `diagnostics`: normalize line endings, then apply every
level in the fixed ascending order. -/
def diagnostics (output : List Char) (context : Context) : Variations :=
  let from_bytes := replaceList output "\r\n".data "\n".data
  ⟨[Normalization.Basic, .StripCouldNotCompile, .StripCouldNotCompile2,
    .StripForMoreInformation, .StripForMoreInformation2, .DirBackslash,
    .TrimEnd, .RustLib].map
    fun normalization => apply from_bytes normalization context⟩

/-- `true` when `l` has no three consecutive newline characters. -/
def noTripleNl : List Char → Bool
  | [] => true
  | c :: t => (!(['\n', '\n', '\n'].isPrefixOf (c :: t))) && noTripleNl t

/-- A concrete context used to instantiate theorems with hypotheses. -/
def ctxW : Context := ⟨"k".data, "/sd".data, "/w".data⟩

/-- Context for the C1 counterexample: the package identifier occurs in a
file name mentioned by a `"--> "` location line. -/
def c1Context : Context := ⟨"mycrate".data, "/tmp/proj".data, "/tmp".data⟩

/-- A line on the fall-through path of `filter` whose output contains the
package identifier replacement. -/
def c1wLine : List Char := "x mycrate y".data

/-- Context for the C8 secondary-location scenario. -/
def c8Context : Context := ⟨"somecrate".data, "/sd".data, "/ws".data⟩

/-- A `"--> "` line containing no path separator. -/
def c10Line : List Char := " --> no separator here".data

/- ### Helper lemmas -/

lemma dropWhile_head_false {p : Char → Bool} {l : List Char} {c : Char}
    {r : List Char} (h : l.dropWhile p = c :: r) : p c = false := by
  have hne : l.dropWhile p ≠ [] := by simp [h]
  have := List.head_dropWhile_not p l hne
  simpa [h] using this

lemma dropWhile_dropWhile (p : Char → Bool) (l : List Char) :
    (l.dropWhile p).dropWhile p = l.dropWhile p := by
  cases h : l.dropWhile p with
  | nil => rfl
  | cons c r => simp [List.dropWhile_cons, dropWhile_head_false h]

lemma trimEnd_append_nl (s : List Char) :
    trimEnd (trimEnd s ++ ['\n']) = trimEnd s := by
  unfold trimEnd
  rw [List.reverse_append, List.reverse_reverse]
  show (List.dropWhile isRustWhitespace
    (['\n'] ++ s.reverse.dropWhile isRustWhitespace)).reverse = _
  rw [List.singleton_append, List.dropWhile_cons]
  simp only [show isRustWhitespace '\n' = true from rfl, if_true]
  rw [dropWhile_dropWhile]

/- ### C3: trim is idempotent -/

/-- C3: `trim` is idempotent: applying `trim` twice yields the same result as
applying it once (stated over the decoded text of the byte input; the lossy
decode is total and surjective onto `List Char`, and the identity on the
output of `trim`). -/
theorem claim_C3 (s : List Char) : trim (trim s) = trim s := by
  have htrim : ∀ t : List Char,
      trim t = if (trimEnd t).isEmpty then trimEnd t else trimEnd t ++ ['\n'] :=
    fun _ => rfl
  by_cases h : (trimEnd s).isEmpty = true
  · have h0 : trimEnd s = [] := by simpa [List.isEmpty_iff] using h
    rw [htrim s, if_pos h, h0]
    rfl
  · rw [htrim s, if_neg h, htrim (trimEnd s ++ ['\n']), trimEnd_append_nl,
      if_neg h]

/- ### C4: trailing-newline invariant of trim -/

/-- C4: when the decoded input is not all whitespace, `trim` ends with exactly
one `'\n'` preceded by a non-whitespace character; for all-whitespace input
(including empty), `trim` returns the empty string. -/
theorem claim_C4 (s : List Char) :
    (s.all isRustWhitespace = true → trim s = []) ∧
    (s.all isRustWhitespace = false →
      ∃ u c, trim s = u ++ ['\n'] ∧ u ≠ [] ∧ u.getLast? = some c ∧
        isRustWhitespace c = false) := by
  constructor
  · intro hall
    have hrev : ∀ x ∈ s.reverse, isRustWhitespace x = true := by
      intro x hx
      exact List.all_eq_true.mp hall x (List.mem_reverse.mp hx)
    have h0 : s.reverse.dropWhile isRustWhitespace = [] :=
      List.dropWhile_eq_nil_iff.mpr hrev
    simp [trim, trimEnd, h0]
  · intro hall
    obtain ⟨x, hxs, hxw⟩ : ∃ x ∈ s, ¬ isRustWhitespace x = true := by
      simpa [List.all_eq_true] using hall
    have hne : s.reverse.dropWhile isRustWhitespace ≠ [] := by
      intro h0
      exact hxw (List.dropWhile_eq_nil_iff.mp h0 x (List.mem_reverse.mpr hxs))
    obtain ⟨c, r, hcr⟩ := List.exists_cons_of_ne_nil hne
    have hc : isRustWhitespace c = false := dropWhile_head_false hcr
    refine ⟨trimEnd s, c, ?_, ?_, ?_, hc⟩
    · have : (trimEnd s).isEmpty = false := by
        simp [trimEnd, hcr]
      simp [trim, this]
    · simp [trimEnd, hcr]
    · simp [trimEnd, hcr]

/-- C4 witness at concrete inputs. -/
theorem claim_C4_witness :
    trim " \n".data = [] ∧
    (∃ u c, trim "a ".data = u ++ ['\n'] ∧ u ≠ [] ∧ u.getLast? = some c ∧
      isRustWhitespace c = false) :=
  ⟨(claim_C4 " \n".data).1 (by decide), (claim_C4 "a ".data).2 (by decide)⟩

/- ### C6: redaction of a location line -/

/-- C6: for any context whose source directory is `/tmp/proj` and any level,
the line `--> /tmp/proj/src/main.rs:3:5` filters to `--> $DIR/main.rs:3:5`
(the rewrite depends on neither the level nor the context). -/
theorem claim_C6 (normalization : Normalization) (krate workspace : List Char) :
    filter "--> /tmp/proj/src/main.rs:3:5".data normalization
        ⟨krate, "/tmp/proj".data, workspace⟩
      = some "--> $DIR/main.rs:3:5".data := rfl

/- ### C7: the abort summary is fully dropped -/

/-- C7: for every context, `diagnostics` applied to
`b"error: aborting due to previous error\n"` yields an empty preferred
variation. -/
theorem claim_C7 (context : Context) :
    (diagnostics "error: aborting due to previous error\n".data context).preferred
      = [] := rfl

/- ### C8: secondary-location lines at RustLib vs Basic -/

/-- C8: a `":::"` line naming the workspace root followed by the
standard-library path marker collapses to `$RUST` at level `RustLib`, while
at level `Basic` only the workspace root is replaced by `$WORKSPACE`. -/
theorem claim_C8 :
    apply "::: /ws/rustlib/src/rust/src/libstd/net/ip.rs:83:1\n".data
        Normalization.RustLib c8Context
      = "::: $RUST/src/libstd/net/ip.rs:83:1\n".data ∧
    apply "::: /ws/rustlib/src/rust/src/libstd/net/ip.rs:83:1\n".data
        Normalization.Basic c8Context
      = "::: $WORKSPACE/rustlib/src/rust/src/libstd/net/ip.rs:83:1\n".data :=
  ⟨rfl, rfl⟩

/- ### C1: the final replacements are skipped by the early returns -/

/-- C1 as stated is false: the `"--> "` branch of `filter` returns early, so
its emitted line keeps a literal occurrence of the package identifier
(replacing it would change the line). -/
theorem claim_C1_counterexample :
    filter "--> /x/mycrate.rs:1:1".data Normalization.Basic c1Context
      = some "--> $DIR/mycrate.rs:1:1".data ∧
    replaceList "--> $DIR/mycrate.rs:1:1".data "mycrate".data "$CRATE".data
      ≠ "--> $DIR/mycrate.rs:1:1".data :=
  ⟨rfl, by decide⟩

/-- C1 amended: for every emitted line NOT taken by the `"--> "` or `"::: "`
early returns, the output is the level-gated transforms followed by the three
replacements (`$CRATE` literal, `$DIR` and `$WORKSPACE` case-insensitive). -/
theorem claim_C1_amended (line : List Char) (normalization : Normalization)
    (context : Context) (out : List Char)
    (h1 : ("--> ".data.isPrefixOf (trimStart line) && (rfindSep line).isSome) = false)
    (h2 : "::: ".data.isPrefixOf (trimStart line) = false)
    (h : filter line normalization context = some out) :
    out = finalReplace (preReplace line normalization context) context := by
  unfold filter at h
  rw [h1] at h
  simp only [Bool.false_eq_true, if_false] at h
  rw [h2] at h
  simp only [Bool.false_eq_true, if_false] at h
  by_cases hd : dropCond line normalization = true
  · rw [if_pos hd] at h; exact absurd h (by simp)
  · rw [if_neg hd] at h
    exact (Option.some_injective _ h).symm

/-- C1 amended witness at a concrete input. -/
theorem claim_C1_witness :
    filter c1wLine Normalization.Basic c1Context = some "x $CRATE y".data ∧
    "x $CRATE y".data
      = finalReplace (preReplace c1wLine Normalization.Basic c1Context) c1Context :=
  ⟨by decide,
   claim_C1_amended c1wLine Normalization.Basic c1Context "x $CRATE y".data
     (by decide) (by decide) (by decide)⟩

/- ### C10: separator-free location lines fall through -/

lemma arrow_not_colon {l : List Char}
    (h : "--> ".data.isPrefixOf l = true) :
    "::: ".data.isPrefixOf l = false := by
  cases l with
  | nil => simp [List.isPrefixOf] at h
  | cons c t =>
    obtain ⟨hc, -⟩ : '-' = c ∧ ('-' :: '>' :: ' ' :: []) <+: t := by
      simpa [List.isPrefixOf] using h
    subst hc
    simp [List.isPrefixOf]

/-- C10: a line beginning (after leading whitespace) with `"--> "` but with
no path separator gets no `$DIR/` rewrite: it falls through to the drop rules
and, when kept, to the level-gated transforms and the three final
replacements. -/
theorem claim_C10 (line : List Char) (normalization : Normalization)
    (context : Context)
    (h1 : "--> ".data.isPrefixOf (trimStart line) = true)
    (h2 : rfindSep line = none) :
    filter line normalization context =
      if dropCond line normalization then none
      else some (tailTransform line normalization context) := by
  unfold filter
  rw [h2]
  simp only [Option.isSome_none, Bool.and_false, Bool.false_eq_true, if_false]
  rw [arrow_not_colon h1]
  simp only [Bool.false_eq_true, if_false]

/-- C10 witness at a concrete input. -/
theorem claim_C10_witness :
    filter c10Line Normalization.RustLib ctxW =
      if dropCond c10Line Normalization.RustLib then none
      else some (tailTransform c10Line Normalization.RustLib ctxW) :=
  claim_C10 c10Line Normalization.RustLib ctxW (by decide) (by decide)

/- ### C2: monotonic aggressiveness -/

lemma atLeast_mono {n1 n2 : Normalization} (m : Normalization)
    (h : n1.rank ≤ n2.rank) (h1 : n1.atLeast m = true) : n2.atLeast m = true := by
  unfold Normalization.atLeast at h1 ⊢
  rw [Nat.ble_eq] at h1 ⊢
  omega

lemma dropCond_mono {line : List Char} {n1 n2 : Normalization}
    (h : n1.rank ≤ n2.rank) (hd : dropCond line n1 = true) :
    dropCond line n2 = true := by
  unfold dropCond at hd ⊢
  simp only [Bool.or_eq_true, Bool.and_eq_true] at hd ⊢
  rcases hd with ((((h0 | h0) | ⟨ha, h0⟩) | ⟨ha, h0⟩) | ⟨ha, h0⟩) | ⟨ha, h0⟩
  · exact Or.inl (Or.inl (Or.inl (Or.inl (Or.inl h0))))
  · exact Or.inl (Or.inl (Or.inl (Or.inl (Or.inr h0))))
  · exact Or.inl (Or.inl (Or.inl (Or.inr ⟨atLeast_mono _ h ha, h0⟩)))
  · exact Or.inl (Or.inl (Or.inr ⟨atLeast_mono _ h ha, h0⟩))
  · exact Or.inl (Or.inr ⟨atLeast_mono _ h ha, h0⟩)
  · exact Or.inr ⟨atLeast_mono _ h ha, h0⟩

/-- C2: monotonic aggressiveness: a line dropped by `filter` at a lower level
is also dropped at every higher level. -/
theorem claim_C2 (line : List Char) (context : Context) (n1 n2 : Normalization)
    (hlt : n1.rank < n2.rank) (h : filter line n1 context = none) :
    filter line n2 context = none := by
  unfold filter at h ⊢
  by_cases hc1 : ("--> ".data.isPrefixOf (trimStart line)
      && (rfindSep line).isSome) = true
  · rw [if_pos hc1] at h; exact absurd h (by simp)
  · rw [if_neg hc1] at h; rw [if_neg hc1]
    by_cases hc2 : "::: ".data.isPrefixOf (trimStart line) = true
    · rw [if_pos hc2] at h; exact absurd h (by simp)
    · rw [if_neg hc2] at h; rw [if_neg hc2]
      by_cases hd : dropCond line n1 = true
      · rw [if_pos (dropCond_mono (Nat.le_of_lt hlt) hd)]
      · rw [if_neg hd] at h; exact absurd h (by simp)

/-- C2 witness: a `could not compile` line dropped at
`StripCouldNotCompile2` is also dropped at `RustLib`. -/
theorem claim_C2_witness :
    filter "error: could not compile `foo`".data Normalization.RustLib ctxW
      = none :=
  claim_C2 "error: could not compile `foo`".data ctxW
    Normalization.StripCouldNotCompile2 Normalization.RustLib
    (by decide) (by decide)

/- ### C5: case-insensitive replacement -/

lemma isPrefixOf_append_self (pat X : List Char) :
    pat.isPrefixOf (pat ++ X) = true := by
  rw [List.isPrefixOf_iff_prefix]
  exact List.prefix_append pat X

lemma containsSeq_cons (c : Char) (rest pat : List Char) :
    containsSeq (c :: rest) pat
      = (pat.isPrefixOf (c :: rest) || containsSeq rest pat) := by
  unfold containsSeq
  rw [findSeqIdx]
  by_cases hp : pat.isPrefixOf (c :: rest) = true
  · simp [hp]
  · simp only [Bool.not_eq_true] at hp
    simp [hp]

lemma splitGoF_fuel {pat : List Char} :
    ∀ (f g : Nat) (l : List Char), l.length ≤ f → l.length ≤ g →
      splitGoF pat f l = splitGoF pat g l := by
  intro f
  induction f with
  | zero =>
    intro g l hf _
    have h0 : l = [] := by cases l <;> simp_all
    subst h0
    cases g <;> rfl
  | succ f ih =>
    intro g l hf hg
    cases l with
    | nil => cases g <;> rfl
    | cons c rest =>
      cases g with
      | zero => simp at hg
      | succ g =>
        simp only [splitGoF]
        by_cases hcond :
            (decide (0 < pat.length) && pat.isPrefixOf (c :: rest)) = true
        · rw [if_pos hcond, if_pos hcond]
          have hp : 0 < pat.length :=
            of_decide_eq_true ((Bool.and_eq_true _ _).mp hcond).1
          have hlen : ((c :: rest).drop pat.length).length ≤ f := by
            simp only [List.length_drop, List.length_cons] at *
            omega
          have hlen' : ((c :: rest).drop pat.length).length ≤ g := by
            simp only [List.length_drop, List.length_cons] at *
            omega
          rw [ih g _ hlen hlen']
        · rw [if_neg hcond, if_neg hcond]
          have hr : rest.length ≤ f := by
            simp only [List.length_cons] at hf
            omega
          have hr' : rest.length ≤ g := by
            simp only [List.length_cons] at hg
            omega
          rw [ih g rest hr hr']

lemma splitGoF_ne_nil (pat : List Char) :
    ∀ (f : Nat) (l : List Char), splitGoF pat f l ≠ [] := by
  intro f
  induction f with
  | zero => intro l; cases l <;> simp [splitGoF]
  | succ f ih =>
    intro l
    cases l with
    | nil => simp [splitGoF]
    | cons c rest =>
      simp only [splitGoF]
      by_cases hcond :
          (decide (0 < pat.length) && pat.isPrefixOf (c :: rest)) = true
      · rw [if_pos hcond]; simp
      · rw [if_neg hcond]
        cases h2 : splitGoF pat f rest with
        | nil => simp
        | cons s ss => simp

lemma splitGoF_no_occ (pat : List Char) (_hp : 0 < pat.length) :
    ∀ (f : Nat) (l : List Char), l.length ≤ f →
      containsSeq l pat = false → splitGoF pat f l = [l] := by
  intro f
  induction f with
  | zero =>
    intro l hl _
    have h0 : l = [] := by cases l <;> simp_all
    subst h0; rfl
  | succ f ih =>
    intro l hl hc
    cases l with
    | nil => rfl
    | cons c rest =>
      rw [containsSeq_cons] at hc
      have hpre : pat.isPrefixOf (c :: rest) = false :=
        (Bool.or_eq_false_iff.mp hc).1
      have hrest : containsSeq rest pat = false :=
        (Bool.or_eq_false_iff.mp hc).2
      simp only [splitGoF]
      rw [if_neg (by simp [hpre])]
      rw [ih rest (by simpa using Nat.le_of_succ_le_succ hl) hrest]

lemma splitGoF_found (pat : List Char) (hp : 0 < pat.length) :
    ∀ (lp X : List Char) (f : Nat),
      (lp ++ (pat ++ X)).length ≤ f →
      findSeqIdx (lp ++ (pat ++ X)) pat = some lp.length →
      splitGoF pat f (lp ++ (pat ++ X)) = lp :: splitGoF pat X.length X := by
  intro lp
  induction lp with
  | nil =>
    intro X f hf _
    obtain ⟨pc, pt, hpat⟩ :=
      List.exists_cons_of_ne_nil (List.length_pos.mp hp)
    cases f with
    | zero =>
      exfalso
      simp only [List.nil_append, List.length_append, Nat.le_zero] at hf
      omega
    | succ f =>
      subst hpat
      simp only [List.nil_append, List.cons_append] at hf ⊢
      simp only [splitGoF]
      rw [if_pos (by
        simp only [Bool.and_eq_true, decide_eq_true_eq]
        exact ⟨hp, by rw [← List.cons_append]; exact isPrefixOf_append_self _ _⟩)]
      rw [show ((pc :: (pt ++ X)).drop (pc :: pt).length) = X by
        rw [← List.cons_append]; exact List.drop_left _ _]
      have hXf : X.length ≤ f := by
        simp only [List.length_cons, List.length_append] at hf
        omega
      rw [splitGoF_fuel f X.length X hXf le_rfl]
  | cons c lp' ih =>
    intro X f hf hfind
    rw [List.cons_append] at hf hfind ⊢
    have hpre : pat.isPrefixOf (c :: (lp' ++ (pat ++ X))) = false := by
      by_contra h'
      simp only [Bool.not_eq_false] at h'
      rw [findSeqIdx, if_pos h'] at hfind
      simp at hfind
    have hfind' : findSeqIdx (lp' ++ (pat ++ X)) pat = some lp'.length := by
      rw [findSeqIdx, if_neg (by simp [hpre])] at hfind
      cases hfi : findSeqIdx (lp' ++ (pat ++ X)) pat with
      | none => rw [hfi] at hfind; simp at hfind
      | some a =>
        rw [hfi] at hfind
        simp only [Option.map_some', Option.some.injEq, List.length_cons] at hfind
        exact congrArg some (by omega)
    cases f with
    | zero => simp at hf
    | succ f =>
      simp only [splitGoF]
      rw [if_neg (by simp [hpre])]
      have hlen : (lp' ++ (pat ++ X)).length ≤ f := by
        simp only [List.length_cons] at hf
        omega
      rw [ih X f hlen hfind']

/-- C5: case-insensitive replacement: (1) a needle with no case-insensitive
occurrence leaves the haystack unchanged; (2) at a leftmost case-insensitive
match `m` of the needle, the match is replaced by the token, the unmatched
prefix `p` is kept with its original case, and replacement continues in the
remainder; (3) the spec's example. -/
theorem claim_C5 :
    (∀ (hay needle tok : List Char), needle ≠ [] →
        containsSeq (mapLower hay) (mapLower needle) = false →
        replaceCaseInsensitive hay needle tok = hay) ∧
    (∀ (p m s needle tok : List Char), needle ≠ [] →
        mapLower m = mapLower needle →
        findSeqIdx (mapLower (p ++ m ++ s)) (mapLower needle) = some p.length →
        replaceCaseInsensitive (p ++ m ++ s) needle tok
          = p ++ tok ++ replaceCaseInsensitive s needle tok) ∧
    replaceCaseInsensitive "a FOO b foo c".data "Foo".data "X".data
      = "a X b X c".data := by
  have hlenLower : ∀ l : List Char, (mapLower l).length = l.length := by
    intro l; simp [mapLower]
  have hEmptyLower : ∀ l : List Char, l ≠ [] → (mapLower l).isEmpty = false := by
    intro l hl
    cases l with
    | nil => exact absurd rfl hl
    | cons c t => rfl
  refine ⟨?_, ?_, by decide⟩
  · intro hay needle tok hne hc
    have hplen : 0 < (mapLower needle).length := by
      rw [hlenLower]
      exact List.length_pos.mpr hne
    unfold replaceCaseInsensitive splitOnSeq
    simp only [hEmptyLower needle hne, Bool.false_eq_true, if_false]
    rw [splitGoF_no_occ (mapLower needle) hplen (mapLower hay).length
      (mapLower hay) le_rfl hc]
    show hay.take (mapLower hay).length
        ++ rebuildRest (hay.drop (mapLower hay).length) _ tok [] = hay
    rw [hlenLower, List.take_length]
    simp [rebuildRest]
  · intro p m s needle tok hne hml hfind
    have hplen : 0 < (mapLower needle).length := by
      rw [hlenLower]
      exact List.length_pos.mpr hne
    have hmap : mapLower (p ++ m ++ s)
        = mapLower p ++ (mapLower needle ++ mapLower s) := by
      simp only [mapLower, List.map_append, List.append_assoc] at hml ⊢
      rw [show List.map toAsciiLowercase m = List.map toAsciiLowercase needle
        from hml]
    have hfind' : findSeqIdx (mapLower p ++ (mapLower needle ++ mapLower s))
        (mapLower needle) = some (mapLower p).length := by
      rw [← hmap, hfind, hlenLower]
    obtain ⟨seg, segs, hsegs⟩ : ∃ seg segs,
        splitGoF (mapLower needle) (mapLower s).length (mapLower s)
          = seg :: segs := by
      cases h2 : splitGoF (mapLower needle) (mapLower s).length (mapLower s) with
      | nil => exact absurd h2 (splitGoF_ne_nil _ _ _)
      | cons a b => exact ⟨a, b, rfl⟩
    have hlen_m : (mapLower needle).length = m.length := by
      rw [← hml, hlenLower]
    unfold replaceCaseInsensitive splitOnSeq
    simp only [hEmptyLower needle hne, Bool.false_eq_true, if_false]
    rw [hmap,
      splitGoF_found (mapLower needle) hplen (mapLower p) (mapLower s) _
        le_rfl hfind', hsegs]
    show (p ++ m ++ s).take (mapLower p).length
        ++ rebuildRest ((p ++ m ++ s).drop (mapLower p).length)
          (mapLower needle).length tok (seg :: segs)
      = p ++ tok ++ (s.take seg.length
          ++ rebuildRest (s.drop seg.length) (mapLower needle).length tok segs)
    rw [hlenLower, List.append_assoc, List.take_left, List.drop_left]
    show p ++ (tok ++ (((m ++ s).drop (mapLower needle).length).take seg.length
        ++ rebuildRest (((m ++ s).drop (mapLower needle).length).drop seg.length)
          (mapLower needle).length tok segs)) = _
    rw [hlen_m, List.drop_left]
    simp [List.append_assoc]

/-- C5 witness at concrete inputs. -/
theorem claim_C5_witness :
    replaceCaseInsensitive "abc".data "zz".data "X".data = "abc".data ∧
    replaceCaseInsensitive "a FOO b".data "Foo".data "X".data
      = "a ".data ++ "X".data
        ++ replaceCaseInsensitive " b".data "Foo".data "X".data :=
  ⟨claim_C5.1 "abc".data "zz".data "X".data (by decide) (by decide),
   claim_C5.2.1 "a ".data "FOO".data " b".data "Foo".data "X".data
     (by decide) (by decide) (by decide)⟩

/- ### C9: blank-line collapse invariant -/

lemma isPrefixOf_cons_cons (a b : Char) (as bs : List Char) :
    (a :: as).isPrefixOf (b :: bs) = (a == b && as.isPrefixOf bs) := rfl

lemma isPrefixOf_cons_nil (a : Char) (as : List Char) :
    (a :: as).isPrefixOf ([] : List Char) = false := rfl

lemma isPrefixOf_nil_left (l : List Char) :
    List.isPrefixOf [] l = true := by
  cases l <;> rfl

lemma pre2_short {l : List Char} (h : l.length < 2) :
    ['\n', '\n'].isPrefixOf l = false := by
  cases l with
  | nil => rfl
  | cons x r =>
    cases r with
    | nil => rw [isPrefixOf_cons_cons, isPrefixOf_cons_nil, Bool.and_false]
    | cons y t => simp only [List.length_cons] at h; omega

lemma isPrefixOf_append_of_le {k x : List Char} (y : List Char)
    (h : k.length ≤ x.length) : k.isPrefixOf (x ++ y) = k.isPrefixOf x := by
  induction k generalizing x with
  | nil => rw [isPrefixOf_nil_left, isPrefixOf_nil_left]
  | cons a as ih =>
    cases x with
    | nil => simp at h
    | cons b bs =>
      rw [List.cons_append, isPrefixOf_cons_cons, isPrefixOf_cons_cons,
        ih (by simp only [List.length_cons] at h; omega)]

lemma isPrefixOf_mono_append {k x : List Char} (y : List Char)
    (h : k.isPrefixOf x = true) : k.isPrefixOf (x ++ y) = true := by
  induction k generalizing x with
  | nil => rw [isPrefixOf_nil_left]
  | cons a as ih =>
    cases x with
    | nil => rw [isPrefixOf_cons_nil] at h; exact absurd h (by simp)
    | cons b bs =>
      rw [isPrefixOf_cons_cons, Bool.and_eq_true] at h
      rw [List.cons_append, isPrefixOf_cons_cons, h.1, ih h.2]
      rfl

lemma allNl_isPrefixOf_append {k b : List Char} (a : List Char)
    (hk : ∀ c ∈ k, c = '\n') (hb : ∀ c ∈ b, c ≠ '\n') :
    k.isPrefixOf (a ++ b) = k.isPrefixOf a := by
  induction k generalizing a with
  | nil => rw [isPrefixOf_nil_left, isPrefixOf_nil_left]
  | cons x k' ih =>
    have hx : x = '\n' := hk x (List.mem_cons_self x k')
    cases a with
    | nil =>
      rw [List.nil_append, isPrefixOf_cons_nil]
      cases b with
      | nil => rfl
      | cons c t =>
        rw [isPrefixOf_cons_cons,
          beq_eq_false_iff_ne.mpr
            (fun e => hb c (List.mem_cons_self c t) (hx ▸ e.symm)),
          Bool.false_and]
    | cons y a' =>
      rw [List.cons_append, isPrefixOf_cons_cons, isPrefixOf_cons_cons,
        ih a' (fun c hc => hk c (List.mem_cons_of_mem _ hc))]

lemma nt_cons (c : Char) (t : List Char) :
    noTripleNl (c :: t)
      = ((!(['\n', '\n', '\n'].isPrefixOf (c :: t))) && noTripleNl t) := rfl

lemma nt_of_nlfree {b : List Char} (hb : ∀ c ∈ b, c ≠ '\n') :
    noTripleNl b = true := by
  induction b with
  | nil => rfl
  | cons c t ih =>
    rw [nt_cons, isPrefixOf_cons_cons,
      beq_eq_false_iff_ne.mpr (fun e => hb c (List.mem_cons_self c t) e.symm),
      Bool.false_and, ih (fun x hx => hb x (List.mem_cons_of_mem _ hx))]
    rfl

lemma nt_append_nlfree {a b : List Char} (ha : noTripleNl a = true)
    (hb : ∀ c ∈ b, c ≠ '\n') : noTripleNl (a ++ b) = true := by
  induction a with
  | nil => exact nt_of_nlfree hb
  | cons c a' ih =>
    rw [nt_cons, Bool.and_eq_true] at ha
    show noTripleNl ((c :: a') ++ b) = true
    rw [show (c :: a') ++ b = c :: (a' ++ b) from rfl, nt_cons,
      show c :: (a' ++ b) = (c :: a') ++ b from rfl,
      allNl_isPrefixOf_append (c :: a') (by decide) hb, Bool.and_eq_true]
    exact ⟨ha.1, ih ha.2⟩

lemma nt_prefix {a b : List Char} (h : noTripleNl (a ++ b) = true) :
    noTripleNl a = true := by
  induction a with
  | nil => rfl
  | cons c a' ih =>
    rw [show (c :: a') ++ b = c :: (a' ++ b) from rfl, nt_cons,
      Bool.and_eq_true] at h
    rw [nt_cons, Bool.and_eq_true]
    refine ⟨?_, ih h.2⟩
    by_contra hcon
    have hcon' : ['\n', '\n', '\n'].isPrefixOf (c :: a') = true := by
      simpa using hcon
    have hmono := isPrefixOf_mono_append b hcon'
    rw [show (c :: a') ++ b = c :: (a' ++ b) from rfl] at hmono
    rw [hmono] at h
    simp at h

lemma nt_append_single_nl {a : List Char} (ha : noTripleNl a = true)
    (hs : ['\n', '\n'].isPrefixOf a.reverse = false) :
    noTripleNl (a ++ ['\n']) = true := by
  induction a with
  | nil => decide
  | cons c t ih =>
    rw [nt_cons, Bool.and_eq_true] at ha
    obtain ⟨hA, hB⟩ := ha
    rw [show (c :: t).reverse = t.reverse ++ [c] from by simp] at hs
    have hs' : ['\n', '\n'].isPrefixOf t.reverse = false := by
      by_cases hlen : 2 ≤ t.reverse.length
      · rw [isPrefixOf_append_of_le [c]
          (show (['\n', '\n'] : List Char).length ≤ t.reverse.length by
            simpa using hlen)] at hs
        exact hs
      · exact pre2_short (by omega)
    show noTripleNl (c :: (t ++ ['\n'])) = true
    rw [nt_cons, Bool.and_eq_true]
    refine ⟨?_, ih hB hs'⟩
    rw [isPrefixOf_cons_cons]
    by_cases hc : c = '\n'
    · subst hc
      have hpre2t : ['\n', '\n'].isPrefixOf t = false := by
        rw [isPrefixOf_cons_cons] at hA
        simpa using hA
      have hfin : ['\n', '\n'].isPrefixOf (t ++ ['\n']) = false := by
        cases t with
        | nil => decide
        | cons x r =>
          cases r with
          | nil =>
            by_cases hx : x = '\n'
            · exfalso
              subst hx
              exact absurd hs (by decide)
            · rw [List.cons_append, isPrefixOf_cons_cons,
                beq_eq_false_iff_ne.mpr (fun e => hx e.symm), Bool.false_and]
          | cons y r' =>
            rw [isPrefixOf_append_of_le ['\n']
              (show (['\n', '\n'] : List Char).length ≤ (x :: y :: r').length by
                simp)]
            exact hpre2t
      rw [hfin, Bool.and_false]
      rfl
    · rw [beq_eq_false_iff_ne.mpr (fun e => hc e.symm), Bool.false_and]
      rfl

lemma nt_eq_not_containsSeq (l : List Char) :
    noTripleNl l = !(containsSeq l ['\n', '\n', '\n']) := by
  induction l with
  | nil => rfl
  | cons c t ih =>
    rw [nt_cons, containsSeq_cons, ih, Bool.not_or]

lemma mem_joinWith {c : Char} {sep : List Char} :
    ∀ {xs : List (List Char)}, c ∈ joinWith sep xs →
      c ∈ sep ∨ ∃ x ∈ xs, c ∈ x := by
  intro xs
  induction xs with
  | nil => intro h; simp [joinWith] at h
  | cons x rest ih =>
    cases rest with
    | nil =>
      intro h
      exact Or.inr ⟨x, List.mem_cons_self _ _, by simpa [joinWith] using h⟩
    | cons y rest' =>
      intro h
      rw [show joinWith sep (x :: y :: rest')
        = x ++ sep ++ joinWith sep (y :: rest') from rfl] at h
      rcases List.mem_append.mp h with h1 | h2
      · rcases List.mem_append.mp h1 with ha | hb
        · exact Or.inr ⟨x, List.mem_cons_self _ _, ha⟩
        · exact Or.inl hb
      · rcases ih h2 with ha | ⟨z, hz, hcz⟩
        · exact Or.inl ha
        · exact Or.inr ⟨z, List.mem_cons_of_mem _ hz, hcz⟩

lemma mem_splitGoF {c : Char} {pat : List Char} :
    ∀ (f : Nat) (l s : List Char),
      s ∈ splitGoF pat f l → c ∈ s → c ∈ l := by
  intro f
  induction f with
  | zero =>
    intro l s hs hc
    cases l with
    | nil =>
      simp only [splitGoF, List.mem_singleton] at hs
      subst hs; simp at hc
    | cons a t =>
      simp only [splitGoF, List.mem_singleton] at hs
      subst hs; exact hc
  | succ f ih =>
    intro l s hs hc
    cases l with
    | nil =>
      simp only [splitGoF, List.mem_singleton] at hs
      subst hs; simp at hc
    | cons a t =>
      simp only [splitGoF] at hs
      by_cases hcond : (decide (0 < pat.length) && pat.isPrefixOf (a :: t)) = true
      · rw [if_pos hcond] at hs
        rcases List.mem_cons.mp hs with h1 | h2
        · subst h1; simp at hc
        · exact List.drop_subset _ _ (ih _ s h2 hc)
      · rw [if_neg hcond] at hs
        cases h2 : splitGoF pat f t with
        | nil =>
          rw [h2] at hs
          simp only [List.mem_singleton] at hs
          subst hs
          rcases List.mem_singleton.mp hc with rfl
          exact List.mem_cons_self _ _
        | cons s0 ss =>
          rw [h2] at hs
          rcases List.mem_cons.mp hs with h3 | h4
          · subst h3
            rcases List.mem_cons.mp hc with h5 | h6
            · subst h5; exact List.mem_cons_self _ _
            · exact List.mem_cons_of_mem _
                (ih t s0 (h2 ▸ List.mem_cons_self _ _) h6)
          · exact List.mem_cons_of_mem _
              (ih t s (h2 ▸ List.mem_cons_of_mem _ h4) hc)

lemma mem_splitOnSeq {c : Char} {l pat s : List Char}
    (hs : s ∈ splitOnSeq l pat) (hc : c ∈ s) : c ∈ l := by
  unfold splitOnSeq at hs
  by_cases hp : pat.isEmpty = true
  · rw [if_pos hp] at hs
    rcases List.mem_cons.mp hs with h1 | h2
    · subst h1; simp at hc
    · rcases List.mem_append.mp h2 with h3 | h4
      · obtain ⟨x, hx, hxs⟩ := List.mem_map.mp h3
        rw [← hxs] at hc
        rcases List.mem_singleton.mp hc with rfl
        exact hx
      · rcases List.mem_singleton.mp h4 with rfl
        simp at hc
  · rw [if_neg hp] at hs
    exact mem_splitGoF l.length l s hs hc

lemma mem_replaceList {c : Char} {l pat tok : List Char}
    (hc : c ∈ replaceList l pat tok) : c ∈ l ∨ c ∈ tok := by
  unfold replaceList at hc
  rcases mem_joinWith hc with h | ⟨x, hx, hcx⟩
  · exact Or.inr h
  · exact Or.inl (mem_splitOnSeq hx hcx)

lemma mem_rebuildRest {c : Char} {patLen : Nat} {tok : List Char} :
    ∀ (segs : List (List Char)) (self : List Char),
      c ∈ rebuildRest self patLen tok segs → c ∈ self ∨ c ∈ tok := by
  intro segs
  induction segs with
  | nil => intro self h; simp [rebuildRest] at h
  | cons seg rest ih =>
    intro self h
    rw [show rebuildRest self patLen tok (seg :: rest)
      = tok ++ (((self.drop patLen).take seg.length)
        ++ rebuildRest ((self.drop patLen).drop seg.length) patLen tok rest)
      from rfl] at h
    rcases List.mem_append.mp h with h1 | h2
    · exact Or.inr h1
    · rcases List.mem_append.mp h2 with h3 | h4
      · exact Or.inl (List.drop_subset _ _ (List.take_subset _ _ h3))
      · rcases ih _ h4 with h5 | h6
        · exact Or.inl (List.drop_subset _ _ (List.drop_subset _ _ h5))
        · exact Or.inr h6

lemma mem_rebuild {c : Char} {patLen : Nat} {tok self : List Char}
    {segs : List (List Char)} (h : c ∈ rebuild self patLen tok segs) :
    c ∈ self ∨ c ∈ tok := by
  cases segs with
  | nil => simp [rebuild] at h
  | cons first rest =>
    rw [show rebuild self patLen tok (first :: rest)
      = self.take first.length
        ++ rebuildRest (self.drop first.length) patLen tok rest from rfl] at h
    rcases List.mem_append.mp h with h1 | h2
    · exact Or.inl (List.take_subset _ _ h1)
    · rcases mem_rebuildRest rest _ h2 with h3 | h4
      · exact Or.inl (List.drop_subset _ _ h3)
      · exact Or.inr h4

lemma mem_replaceCI {c : Char} {l pat tok : List Char}
    (h : c ∈ replaceCaseInsensitive l pat tok) : c ∈ l ∨ c ∈ tok := by
  unfold replaceCaseInsensitive at h
  exact mem_rebuild h

lemma mem_trimEnd {c : Char} {l : List Char} (h : c ∈ trimEnd l) : c ∈ l := by
  unfold trimEnd at h
  rw [List.mem_reverse] at h
  exact List.mem_reverse.mp ((List.dropWhile_sublist _).subset h)

lemma nlfree_filter {line out : List Char} {normalization : Normalization}
    {context : Context} (hl : '\n' ∉ line)
    (h : filter line normalization context = some out) : '\n' ∉ out := by
  unfold filter at h
  by_cases hc1 : ("--> ".data.isPrefixOf (trimStart line)
      && (rfindSep line).isSome) = true
  · rw [if_pos hc1] at h
    injection h with h
    subst h
    intro hmem
    unfold arrowRewrite at hmem
    rcases List.mem_append.mp hmem with h1 | h2
    · rcases List.mem_append.mp h1 with h3 | h4
      · exact hl (List.take_subset _ _ h3)
      · exact absurd h4 (by decide)
    · exact hl (List.drop_subset _ _ h2)
  · rw [if_neg hc1] at h
    by_cases hc2 : "::: ".data.isPrefixOf (trimStart line) = true
    · rw [if_pos hc2] at h
      injection h with h
      subst h
      have hline1 : '\n' ∉ replaceBackslash
          (replaceCaseInsensitive line context.workspace "$WORKSPACE".data) := by
        intro hcm
        unfold replaceBackslash at hcm
        obtain ⟨a, ha, hfa⟩ := List.mem_map.mp hcm
        have hanl : a ≠ '\n' := by
          rcases mem_replaceCI ha with h5 | h6
          · exact fun he => hl (he ▸ h5)
          · exact fun he => absurd (he ▸ h6) (by decide)
        by_cases hab : a = '\\'
        · rw [if_pos hab] at hfa; exact absurd hfa (by decide)
        · rw [if_neg hab] at hfa; exact hanl hfa
      intro hmem
      unfold colonRewrite at hmem
      simp only [] at hmem
      by_cases hrl : normalization.atLeast Normalization.RustLib = true
      · rw [if_pos hrl] at hmem
        cases hfi : findSeqIdx (replaceBackslash
            (replaceCaseInsensitive line context.workspace "$WORKSPACE".data))
            "/rustlib/src/rust/src/".data with
        | none => rw [hfi] at hmem; exact hline1 hmem
        | some pos =>
          rw [hfi] at hmem
          rcases List.mem_append.mp hmem with h1 | h2
          · rcases List.mem_append.mp h1 with h3 | h4
            · exact hline1 (List.take_subset _ _ h3)
            · exact absurd h4 (by decide)
          · exact hline1 (List.drop_subset _ _ h2)
      · rw [if_neg hrl] at hmem
        exact hline1 hmem
    · rw [if_neg hc2] at h
      by_cases hd : dropCond line normalization = true
      · rw [if_pos hd] at h; exact absurd h (by simp)
      · rw [if_neg hd] at h
        injection h with h
        subst h
        have hpre : '\n' ∉ preReplace line normalization context := by
          intro hm
          unfold preReplace at hm
          simp only [] at hm
          have hline1 : '\n' ∉ (if normalization.atLeast
              Normalization.DirBackslash = true then
              replaceList line (context.source_dir ++ ['\\']) "$DIR/".data
            else line) := by
            by_cases hdb : normalization.atLeast Normalization.DirBackslash = true
            · rw [if_pos hdb]
              intro hm1
              rcases mem_replaceList hm1 with ha | hb
              · exact hl ha
              · exact absurd hb (by decide)
            · rw [if_neg hdb]; exact hl
          by_cases hte : normalization.atLeast Normalization.TrimEnd = true
          · rw [if_pos hte] at hm
            exact hline1 (mem_trimEnd hm)
          · rw [if_neg hte] at hm
            exact hline1 hm
        intro hmem
        unfold tailTransform finalReplace at hmem
        rcases mem_replaceCI hmem with h1 | h2
        · rcases mem_replaceCI h1 with h3 | h4
          · rcases mem_replaceList h3 with h5 | h6
            · exact hpre h5
            · exact absurd h6 (by decide)
          · exact absurd h4 (by decide)
        · exact absurd h2 (by decide)

lemma splitInclusiveNl_ne_nil {s : List Char} :
    ∀ p ∈ splitInclusiveNl s, p ≠ [] := by
  induction s with
  | nil => intro p hp; simp [splitInclusiveNl] at hp
  | cons c t ih =>
    intro p hp
    simp only [splitInclusiveNl] at hp
    by_cases hc : c = '\n'
    · rw [if_pos hc] at hp
      rcases List.mem_cons.mp hp with h | h
      · subst h; simp
      · exact ih p h
    · rw [if_neg hc] at hp
      cases h2 : splitInclusiveNl t with
      | nil =>
        rw [h2] at hp
        rcases List.mem_singleton.mp hp with rfl
        simp
      | cons s0 rest =>
        rw [h2] at hp
        rcases List.mem_cons.mp hp with h | h
        · subst h; simp
        · exact ih p (h2 ▸ List.mem_cons_of_mem _ h)

lemma splitInclusiveNl_dropLast_nlfree {s : List Char} :
    ∀ p ∈ splitInclusiveNl s, '\n' ∉ p.dropLast := by
  induction s with
  | nil => intro p hp; simp [splitInclusiveNl] at hp
  | cons c t ih =>
    intro p hp
    simp only [splitInclusiveNl] at hp
    by_cases hc : c = '\n'
    · rw [if_pos hc] at hp
      rcases List.mem_cons.mp hp with h | h
      · subst h; simp
      · exact ih p h
    · rw [if_neg hc] at hp
      cases h2 : splitInclusiveNl t with
      | nil =>
        rw [h2] at hp
        rcases List.mem_singleton.mp hp with rfl
        simp
      | cons s0 rest =>
        rw [h2] at hp
        rcases List.mem_cons.mp hp with h | h
        · subst h
          have hs0 : s0 ≠ [] :=
            splitInclusiveNl_ne_nil (s := t) s0 (h2 ▸ List.mem_cons_self _ _)
          obtain ⟨x, xs, rfl⟩ := List.exists_cons_of_ne_nil hs0
          rw [show (c :: x :: xs).dropLast = c :: (x :: xs).dropLast from rfl]
          intro hm
          rcases List.mem_cons.mp hm with h5 | h6
          · exact hc h5.symm
          · exact ih (x :: xs) (h2 ▸ List.mem_cons_self _ _) h6
        · exact ih p (h2 ▸ List.mem_cons_of_mem _ h)

lemma stripLine_nlfree {p : List Char} (h : '\n' ∉ p.dropLast) :
    '\n' ∉ stripLine p := by
  unfold stripLine
  by_cases h1 : (p.getLast? == some '\n') = true
  · rw [if_pos h1]
    by_cases h2 : (p.dropLast.getLast? == some '\r') = true
    · rw [if_pos h2]
      intro hm
      exact h ((List.dropLast_sublist _).subset hm)
    · rw [if_neg h2]
      exact h
  · rw [if_neg h1]
    intro hm
    rcases List.eq_nil_or_concat p with rfl | ⟨q, a, rfl⟩
    · simp at hm
    · rw [List.concat_eq_append] at h h1 hm
      rw [List.dropLast_concat] at h
      rcases List.mem_append.mp hm with h3 | h4
      · exact h h3
      · rcases List.mem_singleton.mp h4 with rfl
        rw [List.getLast?_concat] at h1
        exact h1 (by decide)

lemma rustLines_nlfree {s : List Char} : ∀ l ∈ rustLines s, '\n' ∉ l := by
  intro l hl
  unfold rustLines at hl
  obtain ⟨p, hp, hpl⟩ := List.mem_map.mp hl
  rw [← hpl]
  exact stripLine_nlfree (splitInclusiveNl_dropLast_nlfree p hp)

lemma applyLoop_nt {normalization : Normalization} {context : Context} :
    ∀ (ls : List (List Char)) (acc : List Char),
      noTripleNl acc = true → (∀ l ∈ ls, '\n' ∉ l) →
      noTripleNl (applyLoop ls normalization context acc) = true := by
  intro ls
  induction ls with
  | nil => intro acc ha _; exact ha
  | cons line rest ih =>
    intro acc ha hls
    cases hf : filter line normalization context with
    | none =>
      simp only [applyLoop, hf]
      exact ih acc ha (fun l hl => hls l (List.mem_cons_of_mem _ hl))
    | some l =>
      simp only [applyLoop, hf]
      have hlnl : '\n' ∉ l :=
        nlfree_filter (hls line (List.mem_cons_self _ _)) hf
      have hnt1 : noTripleNl (acc ++ l) = true :=
        nt_append_nlfree ha (fun c hc he => hlnl (he ▸ hc))
      by_cases hsuf : (['\n', '\n'].isSuffixOf (acc ++ l)) = true
      · rw [if_pos hsuf]
        exact ih _ hnt1 (fun x hx => hls x (List.mem_cons_of_mem _ hx))
      · rw [if_neg hsuf]
        apply ih
        · apply nt_append_single_nl hnt1
          have hdef : (['\n', '\n'].isSuffixOf (acc ++ l))
              = ['\n', '\n'].isPrefixOf (acc ++ l).reverse := rfl
          rw [← hdef]
          exact Bool.eq_false_iff.mpr hsuf
        · exact fun x hx => hls x (List.mem_cons_of_mem _ hx)

lemma trim_nt {l : List Char} (h : noTripleNl l = true) :
    noTripleNl (trim l) = true := by
  have hdecomp : trimEnd l ++ (l.reverse.takeWhile isRustWhitespace).reverse
      = l := by
    unfold trimEnd
    rw [← List.reverse_append, List.takeWhile_append_dropWhile,
      List.reverse_reverse]
  have hnt_t : noTripleNl (trimEnd l) = true := nt_prefix (hdecomp ▸ h)
  show noTripleNl
    (if (trimEnd l).isEmpty then trimEnd l else trimEnd l ++ ['\n']) = true
  by_cases he : (trimEnd l).isEmpty = true
  · rw [if_pos he]; exact hnt_t
  · rw [if_neg he]
    apply nt_append_single_nl hnt_t
    rw [show (trimEnd l).reverse = l.reverse.dropWhile isRustWhitespace from by
      unfold trimEnd; rw [List.reverse_reverse]]
    cases hdw : l.reverse.dropWhile isRustWhitespace with
    | nil => rfl
    | cons x r =>
      rw [isPrefixOf_cons_cons]
      have hx : isRustWhitespace x = false := dropWhile_head_false hdw
      rw [beq_eq_false_iff_ne.mpr
        (fun he2 => absurd (he2 ▸ hx) (by decide)), Bool.false_and]

lemma splitInclusiveNl_append_nl {la : List Char} (rest : List Char)
    (h : '\n' ∉ la) :
    splitInclusiveNl (la ++ '\n' :: rest)
      = (la ++ ['\n']) :: splitInclusiveNl rest := by
  induction la with
  | nil =>
    show splitInclusiveNl ('\n' :: rest) = ['\n'] :: splitInclusiveNl rest
    simp only [splitInclusiveNl]
    rw [if_pos trivial]
  | cons c t ih =>
    have hc : c ≠ '\n' := fun e => h (e ▸ List.mem_cons_self c t)
    show splitInclusiveNl (c :: (t ++ '\n' :: rest)) = _
    simp only [splitInclusiveNl]
    rw [if_neg hc, ih (fun hm => h (List.mem_cons_of_mem _ hm))]
    rfl

lemma splitInclusiveNl_nlfree {lb : List Char} (h : '\n' ∉ lb) (hne : lb ≠ []) :
    splitInclusiveNl lb = [lb] := by
  induction lb with
  | nil => exact absurd rfl hne
  | cons c t ih =>
    have hc : c ≠ '\n' := fun e => h (e ▸ List.mem_cons_self c t)
    simp only [splitInclusiveNl]
    rw [if_neg hc]
    cases t with
    | nil => rfl
    | cons d u =>
      rw [ih (fun hm => h (List.mem_cons_of_mem _ hm)) (by simp)]

lemma stripLine_append_nl {la : List Char} (h : '\r' ∉ la) :
    stripLine (la ++ ['\n']) = la := by
  have h1 : ((la ++ ['\n']).getLast? == some '\n') = true := by
    rw [List.getLast?_concat]; rfl
  have h2 : ((la ++ ['\n']).dropLast.getLast? == some '\r') = false := by
    rw [List.dropLast_concat]
    cases hl : la.getLast? with
    | none => rfl
    | some a =>
      have ha : a ∈ la := List.mem_of_mem_getLast? hl
      show (a == '\r') = false
      exact beq_eq_false_iff_ne.mpr (fun e => h (e ▸ ha))
  simp only [stripLine]
  rw [if_pos h1, if_neg (fun hcon => Bool.false_ne_true (h2 ▸ hcon)),
    List.dropLast_concat]

lemma stripLine_no_nl {lb : List Char} (h : '\n' ∉ lb) : stripLine lb = lb := by
  simp only [stripLine]
  rw [if_neg ?_]
  intro hcon
  cases hl : lb.getLast? with
  | none => rw [hl] at hcon; simp at hcon
  | some a =>
    rw [hl] at hcon
    have ha : a ∈ lb := List.mem_of_mem_getLast? hl
    have haeq : a = '\n' := by
      have := beq_iff_eq.mp hcon
      exact Option.some_injective _ this
    exact h (haeq ▸ ha)

lemma rustLines_blank {la lb : List Char} (hla : '\n' ∉ la) (hra : '\r' ∉ la)
    (hlb : '\n' ∉ lb) (hlbne : lb ≠ []) :
    rustLines (la ++ '\n' :: '\n' :: lb) = [la, [], lb] := by
  unfold rustLines
  rw [splitInclusiveNl_append_nl ('\n' :: lb) hla,
    show splitInclusiveNl ('\n' :: lb) = ['\n'] :: splitInclusiveNl lb from by
      simp only [splitInclusiveNl]; rw [if_pos trivial],
    splitInclusiveNl_nlfree hlb hlbne]
  simp only [List.map_cons, List.map_nil]
  rw [stripLine_append_nl hra, stripLine_no_nl hlb,
    show stripLine ['\n'] = [] from rfl]

lemma nlfree_not_suffix2 {l : List Char} (h : '\n' ∉ l) :
    (['\n', '\n'].isSuffixOf l) = false := by
  show (['\n', '\n'].isPrefixOf l.reverse) = false
  cases hr : l.reverse with
  | nil => rfl
  | cons x r =>
    rw [isPrefixOf_cons_cons]
    have hx : x ∈ l := List.mem_reverse.mp (hr ▸ List.mem_cons_self _ _)
    have hne2 : ('\n' : Char) ≠ x := fun e => h (e ▸ hx)
    rw [beq_eq_false_iff_ne.mpr hne2, Bool.false_and]

lemma suffix2_append_one_nl {la : List Char} (hne : la ≠ []) (h : '\n' ∉ la) :
    (['\n', '\n'].isSuffixOf (la ++ ['\n'])) = false := by
  show (['\n', '\n'].isPrefixOf (la ++ ['\n']).reverse) = false
  rw [show (la ++ ['\n']).reverse = '\n' :: la.reverse from by simp,
    isPrefixOf_cons_cons]
  cases hr : la.reverse with
  | nil => exact absurd (by simpa using hr) hne
  | cons x r =>
    rw [isPrefixOf_cons_cons]
    have hx : x ∈ la := List.mem_reverse.mp (hr ▸ List.mem_cons_self _ _)
    have hne2 : ('\n' : Char) ≠ x := fun e => h (e ▸ hx)
    rw [beq_eq_false_iff_ne.mpr hne2, Bool.false_and, Bool.and_false]

lemma suffix2_append_nlfree {x lb : List Char} (hne : lb ≠ []) (h : '\n' ∉ lb) :
    (['\n', '\n'].isSuffixOf (x ++ lb)) = false := by
  show (['\n', '\n'].isPrefixOf (x ++ lb).reverse) = false
  rw [List.reverse_append]
  cases hr : lb.reverse with
  | nil => exact absurd (by simpa using hr) hne
  | cons c r =>
    rw [List.cons_append, isPrefixOf_cons_cons]
    have hc : c ∈ lb := List.mem_reverse.mp (hr ▸ List.mem_cons_self _ _)
    have hne2 : ('\n' : Char) ≠ c := fun e => h (e ▸ hc)
    rw [beq_eq_false_iff_ne.mpr hne2, Bool.false_and]

lemma applyLoop_step {normalization : Normalization} {context : Context}
    (ls : List (List Char)) (acc line l : List Char)
    (hf : filter line normalization context = some l) :
    applyLoop (line :: ls) normalization context acc
      = applyLoop ls normalization context
          (if ['\n', '\n'].isSuffixOf (acc ++ l) then acc ++ l
           else acc ++ l ++ ['\n']) := by
  simp only [applyLoop, hf]

lemma trimEnd_keep {la lb : List Char} (hlbne : lb ≠ [])
    (htr : trimEnd lb = lb) :
    trimEnd (la ++ ['\n'] ++ ['\n'] ++ lb ++ ['\n'])
      = la ++ ['\n'] ++ ['\n'] ++ lb := by
  have hdw : List.dropWhile isRustWhitespace lb.reverse = lb.reverse := by
    have hc := congrArg List.reverse htr
    unfold trimEnd at hc
    rwa [List.reverse_reverse] at hc
  obtain ⟨x, r, hxr⟩ :=
    List.exists_cons_of_ne_nil (show lb.reverse ≠ [] by simpa using hlbne)
  rw [hxr] at hdw
  have hwx : isRustWhitespace x = false := by
    by_contra hcon
    have hcon' : isRustWhitespace x = true := by simpa using hcon
    rw [List.dropWhile_cons, if_pos hcon'] at hdw
    have hlen := congrArg List.length hdw
    have hle := (List.dropWhile_sublist (l := r) isRustWhitespace).length_le
    simp only [List.length_cons] at hlen
    omega
  unfold trimEnd
  rw [show (la ++ ['\n'] ++ ['\n'] ++ lb ++ ['\n']).reverse
      = '\n' :: (lb.reverse ++ ('\n' :: '\n' :: la.reverse)) from by simp]
  rw [List.dropWhile_cons, if_pos (by decide), hxr, List.cons_append,
    List.dropWhile_cons, if_neg (fun hcon => Bool.false_ne_true (hwx ▸ hcon))]
  rw [show x :: (r ++ ('\n' :: '\n' :: la.reverse))
      = (x :: r) ++ ('\n' :: '\n' :: la.reverse) from rfl, ← hxr]
  simp

/-- C9: (1) for every input text, level and context, the reassembled
per-level output never contains three consecutive newlines, i.e. never two
consecutive blank lines; (2) a single blank line sitting between two
surviving lines that the filter leaves unchanged is preserved as a single
blank line. -/
theorem claim_C9 :
    (∀ (s : List Char) (normalization : Normalization) (context : Context),
        containsSeq (apply s normalization context) ['\n', '\n', '\n']
          = false) ∧
    (∀ (normalization : Normalization) (context : Context) (la lb : List Char),
        la ≠ [] → '\n' ∉ la → '\r' ∉ la →
        lb ≠ [] → '\n' ∉ lb → trimEnd lb = lb →
        filter la normalization context = some la →
        filter [] normalization context = some [] →
        filter lb normalization context = some lb →
        apply (la ++ '\n' :: '\n' :: lb) normalization context
          = la ++ '\n' :: '\n' :: (lb ++ ['\n'])) := by
  constructor
  · intro s normalization context
    have hnt : noTripleNl (apply s normalization context) = true := by
      unfold apply
      exact trim_nt (applyLoop_nt (rustLines s) [] rfl rustLines_nlfree)
    have heq := nt_eq_not_containsSeq (apply s normalization context)
    rw [hnt] at heq
    cases hx : containsSeq (apply s normalization context) ['\n', '\n', '\n']
    · rfl
    · rw [hx] at heq; simp at heq
  · intro normalization context la lb hlane hla hra hlbne hlb htr hfa hfe hfb
    unfold apply
    rw [rustLines_blank hla hra hlb hlbne]
    rw [applyLoop_step _ _ _ _ hfa,
      if_neg (fun hcon => Bool.false_ne_true
        ((nlfree_not_suffix2 (l := [] ++ la) (by simpa using hla)) ▸ hcon))]
    rw [applyLoop_step _ _ _ _ hfe,
      if_neg (fun hcon => Bool.false_ne_true
        ((show (['\n', '\n'].isSuffixOf ([] ++ la ++ ['\n'] ++ []))
            = false from by
          rw [List.append_nil, List.nil_append]
          exact suffix2_append_one_nl hlane hla) ▸ hcon))]
    rw [applyLoop_step _ _ _ _ hfb,
      if_neg (fun hcon => Bool.false_ne_true
        ((suffix2_append_nlfree (x := [] ++ la ++ ['\n'] ++ [] ++ ['\n'])
          hlbne hlb) ▸ hcon))]
    show trim ([] ++ la ++ ['\n'] ++ [] ++ ['\n'] ++ lb ++ ['\n']) = _
    rw [show [] ++ la ++ ['\n'] ++ [] ++ ['\n'] ++ lb ++ ['\n']
        = la ++ ['\n'] ++ ['\n'] ++ lb ++ ['\n'] from by simp]
    show (if (trimEnd (la ++ ['\n'] ++ ['\n'] ++ lb ++ ['\n'])).isEmpty then _
      else _) = _
    rw [trimEnd_keep hlbne htr]
    rw [if_neg (by simp [List.isEmpty_iff])]
    simp

/-- C9 witness at concrete inputs. -/
theorem claim_C9_witness :
    containsSeq (apply "x\n\n\n\ny".data Normalization.Basic ctxW)
      ['\n', '\n', '\n'] = false ∧
    apply (['a'] ++ '\n' :: '\n' :: ['b']) Normalization.Basic ctxW
      = ['a'] ++ '\n' :: '\n' :: (['b'] ++ ['\n']) :=
  ⟨claim_C9.1 "x\n\n\n\ny".data Normalization.Basic ctxW,
   claim_C9.2 Normalization.Basic ctxW ['a'] ['b'] (by decide) (by decide)
     (by decide) (by decide) (by decide) (by decide) (by decide) (by decide)
     (by decide)⟩

end Trybuild
